import Mathlib

/-!
Verification of the session engine and progress-tracking subsystem of the
devops-interview-prep quiz application.

The Python source is shallowly embedded:
- `datetime` values are modelled at ISO-8601 resolution, i.e. by the string
  `datetime.isoformat` produces for them (`fromisoformat` is its inverse at
  that resolution).
- Python `float` seconds (`time_taken`) and success rates are modelled by `Rat`
  (exact division, as the spec describes the quantities).
- Python dicts are modelled by insertion-ordered association lists, matching
  the guaranteed insertion order of `dict` iteration.
- `py_random.shuffle` is modelled relationally by a `List.Perm` hypothesis and
  `py_random.sample` by a draw-without-replacement relation (`List.Subperm`
  plus a length constraint).
- The interactive input channel is a list of events (abort signal, invalid
  line, or an integer); the unbounded retry loop returns `none` when the
  event list is exhausted (a model artifact: the real loop re-prompts forever).
-/

/-- `models/question.py`: the `Question` dataclass. `correct_answer` is a
Python `int` (1-based index into `options`), so it is modelled as `Int`. -/
structure Question where
  id : String
  topic : String
  difficulty : String
  question : String
  options : List String
  correct_answer : Int
  explanation : String
  scenario : Option String
  company_tags : Option (List String)
  real_world_context : Option String
deriving DecidableEq, Repr

/-- `models/question.py`: the `QuestionResult` dataclass. `timestamp` is a
`datetime` modelled at ISO-8601 resolution (by its `isoformat` string). -/
structure QuestionResult where
  question_id : String
  topic : String
  difficulty : String
  correct : Bool
  timestamp : String
  time_taken : Option Rat
deriving DecidableEq, Repr

/-- Python sequence indexing `l[i]` with negative-index wrap-around;
`none` models an `IndexError`. -/
def pyGet (l : List α) (i : Int) : Option α :=
  if 0 ≤ i then l[i.toNat]?
  else if 0 ≤ (l.length : Int) + i then l[((l.length : Int) + i).toNat]?
  else none

/-- `session.py` lines 42: the list comprehension
`[(option, i+1 == original_correct_answer) for i, option in enumerate(original_options)]`,
with the running index `i` made explicit. -/
def optionsWithCorrectnessAux (ca : Int) : List String → Nat → List (String × Bool)
  | [], _ => []
  | o :: rest, i => (o, ((i : Int) + 1 == ca)) :: optionsWithCorrectnessAux ca rest (i + 1)

/-- The option/flag pairs built by `ask_question` before shuffling. -/
def optionsWithCorrectness (options : List String) (ca : Int) : List (String × Bool) :=
  optionsWithCorrectnessAux ca options 0

/-- `session.py` lines 45-50: the loop that records `new_correct_position = i + 1`
for each pair whose flag is set (the last set flag wins), threading the loop
index and the current value of `new_correct_position`. -/
def newCorrectPosAux : List (String × Bool) → Nat → Option Nat → Option Nat
  | [], _, acc => acc
  | p :: rest, i, acc => newCorrectPosAux rest (i + 1) (if p.2 then some (i + 1) else acc)

/-- `new_correct_position` as computed by `ask_question` from the shuffled pairs
(`None` when no flag is set). -/
def newCorrectPosition (pairs : List (String × Bool)) : Option Nat :=
  newCorrectPosAux pairs 0 none

/-- `shuffled_options`: the option texts of the shuffled pairs, in order. -/
def shuffledOptions (pairs : List (String × Bool)) : List String :=
  pairs.map Prod.fst

/-- `session.py` line 86: `original_options[original_correct_answer - 1]`, the
correct-answer text reported on an incorrect answer (pre-shuffle lookup). -/
def reportedCorrectText (options : List String) (ca : Int) : Option String :=
  pyGet options (ca - 1)

/-- `question_bank.py`: a raw catalog entry (`q_data` in `load_questions`), one
JSON question object with the optional fields possibly absent. -/
structure RawQuestion where
  id : String
  topic : String
  difficulty : String
  question : String
  options : List String
  correct_answer : Int
  explanation : String
  scenario : Option String
  company_tags : Option (List String)
  real_world_context : Option String
deriving DecidableEq, Repr

/-- `question_bank.py` lines 34-45: the `Question(...)` constructed from one raw
entry; `company_tags` defaults to `[]` via `q_data.get('company_tags', [])`,
no field is validated. -/
def loadQuestion (r : RawQuestion) : Question :=
  { id := r.id, topic := r.topic, difficulty := r.difficulty,
    question := r.question, options := r.options,
    correct_answer := r.correct_answer, explanation := r.explanation,
    scenario := r.scenario, company_tags := some (r.company_tags.getD []),
    real_world_context := r.real_world_context }

/-- `question_bank.py` lines 32-46: `load_questions` on a successfully parsed
catalog maps every raw entry verbatim into the bank (no rejection or dropping). -/
def load_questions (data : List RawQuestion) : List Question :=
  data.map loadQuestion

/-- Bound the spec asserts for a loaded question:
`1 ≤ correct_index ≤ len(options)`. -/
def correctAnswerInBounds (q : Question) : Prop :=
  1 ≤ q.correct_answer ∧ q.correct_answer ≤ (q.options.length : Int)

instance (q : Question) : Decidable (correctAnswerInBounds q) := by
  unfold correctAnswerInBounds; infer_instance

/-- Python `str.lower()` (ASCII range, which covers the catalog's topic,
difficulty and tag strings): lowercase every character. Structurally recursive
over the character list so that concrete instances evaluate. -/
def pyLower (s : String) : String :=
  ⟨s.data.map Char.toLower⟩

/-- `if question_ids:` filter of `get_questions` (line 58-59); an empty list is
falsy in Python, so it disables the filter. -/
def applyIdsFilter (ids : Option (List String)) (qs : List Question) : List Question :=
  match ids with
  | none => qs
  | some l => if l.isEmpty then qs else qs.filter (fun q => l.contains q.id)

/-- `if topic:` filter of `get_questions` (line 61-62); the empty string is
falsy in Python, so it disables the filter. -/
def applyTopicFilter (topic : Option String) (qs : List Question) : List Question :=
  match topic with
  | none => qs
  | some t => if t.isEmpty then qs else qs.filter (fun q => pyLower q.topic == pyLower t)

/-- `if difficulty:` filter of `get_questions` (line 64-65). -/
def applyDifficultyFilter (difficulty : Option String) (qs : List Question) : List Question :=
  match difficulty with
  | none => qs
  | some d => if d.isEmpty then qs else qs.filter (fun q => pyLower q.difficulty == pyLower d)

/-- `if company_type:` filter of `get_questions` (line 67-68):
`company_type.lower() in [tag.lower() for tag in (q.company_tags or [])]`. -/
def applyCompanyFilter (company : Option String) (qs : List Question) : List Question :=
  match company with
  | none => qs
  | some c => if c.isEmpty then qs
      else qs.filter (fun q => ((q.company_tags.getD []).map pyLower).contains (pyLower c))

/-- The `filtered` list of `get_questions` after the four sequential filters
(lines 56-68, in source order: ids, topic, difficulty, company). -/
def filteredQuestions (catalog : List Question) (topic difficulty company : Option String)
    (ids : Option (List String)) : List Question :=
  applyCompanyFilter company
    (applyDifficultyFilter difficulty
      (applyTopicFilter topic
        (applyIdsFilter ids catalog)))

/-- `py_random.sample(population, k)`: any draw of `k` elements without
replacement, in any order (the randomness is abstracted). -/
def pySample (population : List α) (k : Nat) (r : List α) : Prop :=
  r.length = k ∧ r.Subperm population

instance [DecidableEq α] (population : List α) (k : Nat) (r : List α) :
    Decidable (pySample population k r) := by
  unfold pySample; infer_instance

/-- `question_bank.py` lines 52-73, `get_questions` as a relation between its
arguments and a possible return value: if the filtered list is empty the result
is `[]` (line 70-71), otherwise it is a `py_random.sample` of size
`min(count, len(filtered))` (line 73). -/
def get_questions (catalog : List Question) (topic difficulty : Option String) (count : Nat)
    (company : Option String) (ids : Option (List String)) (r : List Question) : Prop :=
  let filtered := filteredQuestions catalog topic difficulty company ids
  if filtered.isEmpty then r = []
  else pySample filtered (min count filtered.length) r

/-- Bool predicate: the question passes the (truthy) `question_ids` filter. -/
def matchesIds (ids : Option (List String)) (q : Question) : Bool :=
  match ids with
  | none => true
  | some l => l.isEmpty || l.contains q.id

/-- Bool predicate: the question passes the (truthy) `topic` filter. -/
def matchesTopic (topic : Option String) (q : Question) : Bool :=
  match topic with
  | none => true
  | some t => t.isEmpty || pyLower q.topic == pyLower t

/-- Bool predicate: the question passes the (truthy) `difficulty` filter. -/
def matchesDifficulty (difficulty : Option String) (q : Question) : Bool :=
  match difficulty with
  | none => true
  | some d => d.isEmpty || pyLower q.difficulty == pyLower d

/-- Bool predicate: the question passes the (truthy) `company_type` filter. -/
def matchesCompany (company : Option String) (q : Question) : Bool :=
  match company with
  | none => true
  | some c => c.isEmpty || ((q.company_tags.getD []).map pyLower).contains (pyLower c)

/-- `question_bank.py` lines 91-93: `get_topic_count` counts questions with
`q.topic == topic` (exact, case-sensitive string equality). -/
def get_topic_count (qs : List Question) (topic : String) : Nat :=
  (qs.filter (fun q => q.topic == topic)).length

/-- Modelled from the spec (for comparison with `get_topic_count`): the spec
says topics are free-form strings compared case-insensitively, so the count of
matching questions compares topics after lowercasing both sides. -/
def getTopicCountSpec (qs : List Question) (topic : String) : Nat :=
  (qs.filter (fun q => pyLower q.topic == pyLower topic)).length

/-- `config.py` line 16. -/
def MIN_ATTEMPTS_FOR_WEAK_AREAS : Nat := 3

/-- `config.py` line 17. -/
def MAX_WEAK_AREAS_SHOWN : Nat := 5

/-- A `{'correct': .., 'total': ..}` counter dict. -/
structure Stat where
  correct : Nat
  total : Nat
deriving DecidableEq, Repr

/-- One grouping step on an insertion-ordered dict of per-key counters:
create the entry with `{'correct': 0, 'total': 0}` on first touch (appended at
the end, as Python dicts iterate in insertion order), then `total += 1` and, if
`correct`, `correct += 1`. Used by `get_weak_areas`, `get_topic_stats`,
`get_difficulty_stats` and the session's `topic_performance` update. -/
def bumpStat : List (String × Stat) → String → Bool → List (String × Stat)
  | [], key, correct => [(key, ⟨if correct then 1 else 0, 1⟩)]
  | (k, s) :: rest, key, correct =>
      if k = key then (k, ⟨s.correct + (if correct then 1 else 0), s.total + 1⟩) :: rest
      else (k, s) :: bumpStat rest key correct

/-- Dict lookup on the insertion-ordered association list. -/
def statLookup : List (String × Stat) → String → Option Stat
  | [], _ => none
  | (k, s) :: rest, key => if k = key then some s else statLookup rest key

/-- `progress_tracker.py` lines 65-71 (also 91-98): the `topic_stats` dict
grouped over the whole history, in first-seen topic order. -/
def topicStats (results : List QuestionResult) : List (String × Stat) :=
  results.foldl (fun acc r => bumpStat acc r.topic r.correct) []

/-- `progress_tracker.py` lines 73-77: the `weak_areas` list, one
`(topic, correct/total)` pair per topic with `total >= MIN_ATTEMPTS_FOR_WEAK_AREAS`,
in the dict's first-seen topic order. -/
def weakAreasList (results : List QuestionResult) : List (String × Rat) :=
  (topicStats results).filterMap (fun p =>
    if MIN_ATTEMPTS_FOR_WEAK_AREAS ≤ p.2.total then
      some (p.1, (p.2.correct : Rat) / (p.2.total : Rat))
    else none)

/-- The comparison `key=lambda x: x[1]` induces on the weak-area pairs:
ascending success rate. -/
def rateLe (a b : String × Rat) : Bool :=
  decide (a.2 ≤ b.2)

/-- `progress_tracker.py` line 79:
`sorted(weak_areas, key=lambda x: x[1])[:MAX_WEAK_AREAS_SHOWN]`. Python's
`sorted` is a stable ascending sort, modelled by the stable `List.mergeSort`. -/
def get_weak_areas (results : List QuestionResult) : List (String × Rat) :=
  ((weakAreasList results).mergeSort rateLe).take MAX_WEAK_AREAS_SHOWN

/-- The dict returned by `get_overall_stats`. -/
structure OverallStats where
  total_attempted : Nat
  total_correct : Nat
  success_rate : Rat
  recent_success_rate : Rat
deriving DecidableEq, Repr

/-- `progress_tracker.py` lines 111-135: `get_overall_stats`. `results[-10:]`
is the last 10 records (or the whole list when shorter), i.e.
`drop (length - 10)`. -/
def get_overall_stats (results : List QuestionResult) : OverallStats :=
  if results.isEmpty then ⟨0, 0, 0, 0⟩
  else
    let total_attempted := results.length
    let total_correct := (results.filter (fun r => r.correct)).length
    let recent := results.drop (results.length - 10)
    let recent_correct := (recent.filter (fun r => r.correct)).length
    { total_attempted := total_attempted,
      total_correct := total_correct,
      success_rate := (total_correct : Rat) / (total_attempted : Rat),
      recent_success_rate :=
        if recent.isEmpty then 0 else (recent_correct : Rat) / (recent.length : Rat) }

/-- One record of the progress file, as written by `save_result` (lines 50-57):
the dict with the six fields, `timestamp` serialized by `isoformat`. -/
structure StoredRecord where
  question_id : String
  topic : String
  difficulty : String
  correct : Bool
  timestamp : String
  time_taken : Option Rat
deriving DecidableEq, Repr

/-- `save_result`'s per-record dict (timestamps being modelled at ISO-8601
resolution, `isoformat` is the identity on the model). -/
def serializeResult (r : QuestionResult) : StoredRecord :=
  { question_id := r.question_id, topic := r.topic, difficulty := r.difficulty,
    correct := r.correct, timestamp := r.timestamp, time_taken := r.time_taken }

/-- `_load_results`'s per-record `QuestionResult(...)` (lines 30-38):
`datetime.fromisoformat` inverts `isoformat`, `r.get('time_taken')` reads the
optional field. -/
def parseRecord (s : StoredRecord) : QuestionResult :=
  { question_id := s.question_id, topic := s.topic, difficulty := s.difficulty,
    correct := s.correct, timestamp := s.timestamp, time_taken := s.time_taken }

/-- The state of a `ProgressTracker`: the in-memory history and the backing
file (`none` models a missing or unparsable file). -/
structure TrackerState where
  results : List QuestionResult
  file : Option (List StoredRecord)
deriving DecidableEq, Repr

/-- `progress_tracker.py` lines 22-42, `_load_results`: missing file or any
parse failure yields `[]`, otherwise every stored record is parsed in order. -/
def load_results (file : Option (List StoredRecord)) : List QuestionResult :=
  match file with
  | none => []
  | some recs => recs.map parseRecord

/-- `progress_tracker.py` lines 44-61, `save_result`: append to the in-memory
history unconditionally, then attempt to rewrite the whole history to the
backing file; `writeOk` abstracts whether the `open`/`json.dump` succeeds.
The returned flag is true exactly when the failure warning was printed; the
function is total (the `except` swallows the error), modelling that no
exception propagates. -/
def save_result (st : TrackerState) (r : QuestionResult) (writeOk : Bool) :
    TrackerState × Bool :=
  let results := st.results ++ [r]
  ({ results := results,
     file := if writeOk then some (results.map serializeResult) else st.file },
   !writeOk)

/-- One interaction on the input channel during the answer-collection loop of
`ask_question`: the abort signal (`click.Abort`), an invalid line (non-numeric,
re-prompts), or an integer. -/
inductive InputEvent where
  | abort
  | invalid
  | num (n : Int)
deriving DecidableEq, Repr

/-- `session.py` lines 59-69, the `while True` collection loop: keep reading
until an integer in `[1, numOptions]` arrives (`some (some n)`); the abort
signal returns immediately (`some none`, the `return False` path); out-of-range
integers and invalid lines re-prompt. `none` is a model artifact for an
exhausted event list (the real loop re-prompts forever). -/
def collectAnswer (numOptions : Nat) : List InputEvent → Option (Option Int)
  | [] => none
  | .abort :: _ => some none
  | .invalid :: rest => collectAnswer numOptions rest
  | .num n :: rest =>
      if 1 ≤ n ∧ n ≤ (numOptions : Int) then some (some n)
      else collectAnswer numOptions rest

/-- `session.py` lines 19-25: the mutable state of an `InterviewSession`
(`start_time` is not read by any property under verification and is omitted;
`topic_performance` is an insertion-ordered dict). -/
structure SessionState where
  score : Nat
  total : Nat
  topic_performance : List (String × Stat)
  track_progress : Bool
  results : List QuestionResult
deriving DecidableEq, Repr

/-- `InterviewSession.__init__`. -/
def initSession (track : Bool) : SessionState :=
  { score := 0, total := 0, topic_performance := [], track_progress := track,
    results := [] }

/-- `session.py` lines 27-107, `ask_question`, with the I/O made explicit:
`shuffled` is the shuffled `options_with_correctness` list (related to the
question by a permutation hypothesis in the theorems), `inputs` the input
events, `ts` the judgment wall-clock time (ISO-8601), `tt` the elapsed seconds.
Returns the new state and the boolean the method returns, or `none` when the
input events run out (model artifact). On `click.Abort` the method returns
`False` before any counter is touched (line 66-67). The answer is compared to
`new_correct_position` (line 74); the state updates mirror lines 73-105. -/
def ask_question (st : SessionState) (q : Question) (shuffled : List (String × Bool))
    (inputs : List InputEvent) (ts : String) (tt : Rat) :
    Option (SessionState × Bool) :=
  match collectAnswer (shuffledOptions shuffled).length inputs with
  | none => none
  | some none => some (st, false)
  | some (some answer) =>
      let correct : Bool :=
        decide (some answer = (newCorrectPosition shuffled).map (fun p => (p : Int)))
      let newResults :=
        if st.track_progress then
          st.results ++ [{ question_id := q.id, topic := q.topic,
                           difficulty := q.difficulty, correct := correct,
                           timestamp := ts, time_taken := some tt }]
        else st.results
      some ({ score := if correct then st.score + 1 else st.score,
              total := st.total + 1,
              topic_performance := bumpStat st.topic_performance q.topic correct,
              track_progress := st.track_progress,
              results := newResults },
            correct)

/-- The per-call inputs of one `ask_question` invocation. -/
structure AskInput where
  q : Question
  shuffled : List (String × Bool)
  inputs : List InputEvent
  ts : String
  tt : Rat

/-- A session run: `ask_question` on each prepared input in turn (a run that
exhausts its input events stops, a model artifact). -/
def runSession (st : SessionState) : List AskInput → SessionState
  | [] => st
  | a :: rest =>
      match ask_question st a.q a.shuffled a.inputs a.ts a.tt with
      | none => st
      | some (st2, _) => runSession st2 rest

/-- The session counter invariant: `score ≤ total`, the per-topic counters sum
to the global counters, and each topic's `correct` never exceeds its `total`. -/
def sessionInv (st : SessionState) : Prop :=
  st.score ≤ st.total ∧
  st.total = (st.topic_performance.map (fun p => p.2.total)).sum ∧
  st.score = (st.topic_performance.map (fun p => p.2.correct)).sum ∧
  ∀ p ∈ st.topic_performance, p.2.correct ≤ p.2.total

/-- A concrete catalog entry, topic `Linux`. -/
def qLinux1 : Question :=
  ⟨"q1", "Linux", "easy", "p1", ["a", "b"], 1, "e1", none, some ["faang"], none⟩

/-- A concrete catalog entry, topic `linux`. -/
def qLinux2 : Question :=
  ⟨"q2", "linux", "medium", "p2", ["a", "b", "c"], 2, "e2", none, none, none⟩

/-- A concrete catalog entry, topic `git`. -/
def qGit : Question :=
  ⟨"q3", "git", "easy", "p3", ["x", "y"], 2, "e3", none, none, none⟩

/-- A raw catalog entry whose `correct_answer` (5) is out of bounds for its two
options. -/
def rawBad : RawQuestion :=
  ⟨"bad1", "linux", "easy", "p", ["a", "b"], 5, "e", none, none, none⟩

/-- Net effect on one dict entry of folding a batch of results: add the batch's
correct/total counts for that key (creating the entry when the batch touches
the key at all). -/
def statCombine : Option Stat → Nat → Nat → Option Stat
  | none, cc, cn => if cn = 0 then none else some ⟨cc, cn⟩
  | some s, cc, cn => some ⟨s.correct + cc, s.total + cn⟩

/-- A concrete history: topic `aws` has 2 attempts (1 correct), topic `k8s`
has 4 attempts (1 correct). -/
def histC3 : List QuestionResult :=
  [⟨"a1", "aws", "easy", true, "t1", none⟩,
   ⟨"a2", "aws", "easy", false, "t2", none⟩,
   ⟨"k1", "k8s", "easy", true, "t3", none⟩,
   ⟨"k2", "k8s", "easy", false, "t4", none⟩,
   ⟨"k3", "k8s", "easy", false, "t5", none⟩,
   ⟨"k4", "k8s", "easy", false, "t6", none⟩]

theorem optionsWithCorrectnessAux_filter_none (ca : Int) :
    ∀ (opts : List String) (i : Nat), ca ≤ (i : Int) →
      (optionsWithCorrectnessAux ca opts i).filter (fun p => p.2) = [] := by
  intro opts
  induction opts with
  | nil => intro i h; simp [optionsWithCorrectnessAux]
  | cons o rest ih =>
      intro i h
      have hflag : (((i : Int) + 1 == ca)) = false := by
        simp only [beq_eq_false_iff_ne, ne_eq]
        omega
      have hrec := ih (i + 1) (by push_cast; omega)
      simp [optionsWithCorrectnessAux, List.filter_cons, hflag, hrec]

theorem optionsWithCorrectnessAux_filter_one (ca : Int) :
    ∀ (opts : List String) (i : Nat), (i : Int) < ca → ca ≤ (i : Int) + opts.length →
      ∃ t, opts[(ca - i - 1).toNat]? = some t ∧
        (optionsWithCorrectnessAux ca opts i).filter (fun p => p.2) = [(t, true)] := by
  intro opts
  induction opts with
  | nil =>
      intro i h1 h2
      simp only [List.length_nil] at h2
      omega
  | cons o rest ih =>
      intro i h1 h2
      by_cases hca : (i : Int) + 1 = ca
      · have hflag : (((i : Int) + 1 == ca)) = true := by simpa using hca
        have hidx : (ca - i - 1).toNat = 0 := by omega
        have hnone := optionsWithCorrectnessAux_filter_none ca rest (i + 1) (by push_cast; omega)
        refine ⟨o, by simp [hidx], ?_⟩
        simp [optionsWithCorrectnessAux, List.filter_cons, hflag, hnone]
      · have hflag : (((i : Int) + 1 == ca)) = false := by simpa using hca
        have h1' : ((i + 1 : Nat) : Int) < ca := by push_cast; omega
        have h2' : ca ≤ ((i + 1 : Nat) : Int) + rest.length := by
          simp only [List.length_cons] at h2
          push_cast at h2 ⊢
          omega
        obtain ⟨t, ht, hfil⟩ := ih (i + 1) h1' h2'
        refine ⟨t, ?_, ?_⟩
        · have hidx : (ca - i - 1).toNat = (ca - ((i + 1 : Nat) : Int) - 1).toNat + 1 := by
            push_cast
            omega
          rw [hidx]
          simpa using ht
        · simp [optionsWithCorrectnessAux, List.filter_cons, hflag, hfil]

theorem newCorrectPosAux_filter_none :
    ∀ (pairs : List (String × Bool)) (i : Nat) (acc : Option Nat),
      pairs.filter (fun p => p.2) = [] → newCorrectPosAux pairs i acc = acc := by
  intro pairs
  induction pairs with
  | nil => intro i acc _; rfl
  | cons p rest ih =>
      intro i acc h
      rw [List.filter_cons] at h
      by_cases hp : p.2 = true
      · simp [hp] at h
      · simp only [hp, Bool.false_eq_true, if_false] at h
        simp [newCorrectPosAux, hp, ih _ _ h]

theorem newCorrectPosAux_filter_one :
    ∀ (pairs : List (String × Bool)) (i : Nat) (acc : Option Nat) (q : String × Bool),
      pairs.filter (fun p => p.2) = [q] →
      ∃ j, pairs[j]? = some q ∧ newCorrectPosAux pairs i acc = some (i + j + 1) := by
  intro pairs
  induction pairs with
  | nil => intro i acc q h; simp at h
  | cons p rest ih =>
      intro i acc q h
      rw [List.filter_cons] at h
      by_cases hp : p.2 = true
      · simp only [hp, if_true] at h
        rw [List.cons_eq_cons] at h
        obtain ⟨hq, hrest⟩ := h
        have hnone := newCorrectPosAux_filter_none rest (i + 1) (some (i + 1)) hrest
        refine ⟨0, by simp [hq], ?_⟩
        simp [newCorrectPosAux, hp, hnone]
      · simp only [hp, Bool.false_eq_true, if_false] at h
        obtain ⟨j, hj, haux⟩ := ih (i + 1) acc q h
        refine ⟨j + 1, by simpa using hj, ?_⟩
        have harith : i + (j + 1) + 1 = i + 1 + j + 1 := by omega
        rw [harith]
        simpa [newCorrectPosAux, hp] using haux

/-- C1: when `1 ≤ correct_answer ≤ len(options)`, for every permutation the
shuffle can produce, `ask_question` records a `new_correct_position` whose
1-based slot in the shuffled options holds exactly
`options[correct_answer - 1]`, and the correct-answer text reported on an
incorrect answer is that same original pre-shuffle text, independent of the
shuffle. -/
theorem shuffle_tracks_correct_option (options : List String) (ca : Int)
    (shuffled : List (String × Bool))
    (h1 : 1 ≤ ca) (h2 : ca ≤ (options.length : Int))
    (hperm : shuffled.Perm (optionsWithCorrectness options ca)) :
    ∃ pos t, newCorrectPosition shuffled = some pos ∧
      1 ≤ pos ∧ pos ≤ (shuffledOptions shuffled).length ∧
      (shuffledOptions shuffled)[pos - 1]? = some t ∧
      options[(ca - 1).toNat]? = some t ∧
      reportedCorrectText options ca = some t := by
  obtain ⟨t, ht, hfil⟩ :=
    optionsWithCorrectnessAux_filter_one ca options 0 (by omega) (by push_cast; omega)
  have ht' : options[(ca - 1).toNat]? = some t := by simpa using ht
  have hfil' : shuffled.filter (fun p => p.2) = [(t, true)] := by
    have hpf := hperm.filter (fun p => p.2)
    rw [show optionsWithCorrectness options ca = optionsWithCorrectnessAux ca options 0 from rfl,
      hfil] at hpf
    exact List.perm_singleton.mp hpf
  obtain ⟨j, hj, haux⟩ := newCorrectPosAux_filter_one shuffled 0 none (t, true) hfil'
  have hjlt : j < shuffled.length := by
    by_contra hge
    rw [List.getElem?_eq_none (by omega)] at hj
    exact Option.noConfusion hj
  refine ⟨j + 1, t, by simpa using haux, by omega, ?_, ?_, ht', ?_⟩
  · simp [shuffledOptions]
    omega
  · have : (shuffledOptions shuffled)[j]? = some t := by
      simp [shuffledOptions, List.getElem?_map, hj]
    simpa using this
  · unfold reportedCorrectText pyGet
    rw [if_pos (by omega)]
    exact ht'

/-- C1 witness: a concrete 3-option question with `correct_answer = 2` and a
concrete shuffle. -/
theorem shuffle_tracks_correct_option_witness :
    ∃ pos t,
      newCorrectPosition [("c", false), ("b", true), ("a", false)] = some pos ∧
      1 ≤ pos ∧ pos ≤ (shuffledOptions [("c", false), ("b", true), ("a", false)]).length ∧
      (shuffledOptions [("c", false), ("b", true), ("a", false)])[pos - 1]? = some t ∧
      ["a", "b", "c"][(((2 : Int) - 1)).toNat]? = some t ∧
      reportedCorrectText ["a", "b", "c"] 2 = some t :=
  shuffle_tracks_correct_option ["a", "b", "c"] 2
    [("c", false), ("b", true), ("a", false)]
    (by decide) (by decide) (by decide)

theorem mem_applyIdsFilter (ids : Option (List String)) (qs : List Question) (q : Question) :
    q ∈ applyIdsFilter ids qs ↔ q ∈ qs ∧ matchesIds ids q = true := by
  cases ids with
  | none => simp [applyIdsFilter, matchesIds]
  | some l =>
      by_cases hl : l.isEmpty
      · simp [applyIdsFilter, matchesIds, hl]
      · simp [applyIdsFilter, matchesIds, hl, List.mem_filter]

theorem mem_applyTopicFilter (topic : Option String) (qs : List Question) (q : Question) :
    q ∈ applyTopicFilter topic qs ↔ q ∈ qs ∧ matchesTopic topic q = true := by
  cases topic with
  | none => simp [applyTopicFilter, matchesTopic]
  | some t =>
      by_cases ht : t.isEmpty
      · simp [applyTopicFilter, matchesTopic, ht]
      · simp [applyTopicFilter, matchesTopic, ht, List.mem_filter]

theorem mem_applyDifficultyFilter (difficulty : Option String) (qs : List Question)
    (q : Question) :
    q ∈ applyDifficultyFilter difficulty qs ↔
      q ∈ qs ∧ matchesDifficulty difficulty q = true := by
  cases difficulty with
  | none => simp [applyDifficultyFilter, matchesDifficulty]
  | some d =>
      by_cases hd : d.isEmpty
      · simp [applyDifficultyFilter, matchesDifficulty, hd]
      · simp [applyDifficultyFilter, matchesDifficulty, hd, List.mem_filter]

theorem mem_applyCompanyFilter (company : Option String) (qs : List Question) (q : Question) :
    q ∈ applyCompanyFilter company qs ↔ q ∈ qs ∧ matchesCompany company q = true := by
  cases company with
  | none => simp [applyCompanyFilter, matchesCompany]
  | some c =>
      by_cases hc : c.isEmpty
      · simp [applyCompanyFilter, matchesCompany, hc]
      · simp [applyCompanyFilter, matchesCompany, hc, List.mem_filter]

theorem mem_filteredQuestions (catalog : List Question)
    (topic difficulty company : Option String) (ids : Option (List String)) (q : Question) :
    q ∈ filteredQuestions catalog topic difficulty company ids ↔
      q ∈ catalog ∧ matchesIds ids q = true ∧ matchesTopic topic q = true ∧
        matchesDifficulty difficulty q = true ∧ matchesCompany company q = true := by
  unfold filteredQuestions
  rw [mem_applyCompanyFilter, mem_applyDifficultyFilter, mem_applyTopicFilter,
    mem_applyIdsFilter]
  tauto

/-- C2: `get_questions` applies the supplied filters conjunctively (ids, topic,
difficulty, company, the string matches case-insensitive), returns `[]` on an
empty filtered set, and otherwise any possible result has exactly
`min count k` entries drawn without replacement from the filtered set of size
`k` (so no entry is used twice and every returned question passes every
filter). -/
theorem get_questions_filters_and_sample (catalog : List Question)
    (topic difficulty company : Option String) (ids : Option (List String))
    (count : Nat) (r : List Question)
    (hr : get_questions catalog topic difficulty count company ids r) :
    r.length = min count (filteredQuestions catalog topic difficulty company ids).length ∧
    r.Subperm (filteredQuestions catalog topic difficulty company ids) ∧
    (filteredQuestions catalog topic difficulty company ids = [] → r = []) ∧
    (∀ q, q ∈ filteredQuestions catalog topic difficulty company ids ↔
      q ∈ catalog ∧ matchesIds ids q = true ∧ matchesTopic topic q = true ∧
        matchesDifficulty difficulty q = true ∧ matchesCompany company q = true) ∧
    (∀ q ∈ r, q ∈ filteredQuestions catalog topic difficulty company ids) := by
  simp only [get_questions] at hr
  by_cases hemp : (filteredQuestions catalog topic difficulty company ids).isEmpty
  · rw [if_pos hemp] at hr
    have hnil : filteredQuestions catalog topic difficulty company ids = [] :=
      List.isEmpty_iff.mp hemp
    subst hr
    exact ⟨by simp [hnil], List.nil_subperm, fun _ => rfl,
      fun q => mem_filteredQuestions catalog topic difficulty company ids q, by simp⟩
  · rw [if_neg hemp] at hr
    obtain ⟨hlen, hsub⟩ := hr
    refine ⟨hlen, hsub, ?_,
      fun q => mem_filteredQuestions catalog topic difficulty company ids q,
      fun q hq => hsub.subset hq⟩
    intro h
    rw [h] at hemp
    simp at hemp

/-- C2 witness: filtering the 3-question catalog by topic `LINUX` leaves the
two linux questions and a draw of the requested 5 returns both, in any order. -/
theorem get_questions_filters_and_sample_witness :
    ([qLinux2, qLinux1] : List Question).length =
      min 5 (filteredQuestions [qLinux1, qLinux2, qGit] (some "LINUX") none none none).length ∧
    ([qLinux2, qLinux1] : List Question).Subperm
      (filteredQuestions [qLinux1, qLinux2, qGit] (some "LINUX") none none none) ∧
    (filteredQuestions [qLinux1, qLinux2, qGit] (some "LINUX") none none none = [] →
      [qLinux2, qLinux1] = []) ∧
    (∀ q, q ∈ filteredQuestions [qLinux1, qLinux2, qGit] (some "LINUX") none none none ↔
      q ∈ [qLinux1, qLinux2, qGit] ∧ matchesIds none q = true ∧
        matchesTopic (some "LINUX") q = true ∧ matchesDifficulty none q = true ∧
        matchesCompany none q = true) ∧
    (∀ q ∈ [qLinux2, qLinux1],
      q ∈ filteredQuestions [qLinux1, qLinux2, qGit] (some "LINUX") none none none) :=
  get_questions_filters_and_sample [qLinux1, qLinux2, qGit] (some "LINUX") none none none 5
    [qLinux2, qLinux1] (by simp only [get_questions]; decide)

/-- C5: `load_questions` performs no bounds validation: the catalog entry with
`correct_answer = 5` and only 2 options is loaded into the bank verbatim, with
its out-of-bounds index intact, contradicting the claimed load-time invariant. -/
theorem load_questions_accepts_out_of_bounds :
    load_questions [rawBad] = [loadQuestion rawBad] ∧
    (loadQuestion rawBad).correct_answer = 5 ∧
    (loadQuestion rawBad).options.length = 2 ∧
    ¬ correctAnswerInBounds (loadQuestion rawBad) := by
  refine ⟨rfl, rfl, rfl, ?_⟩
  intro h
  exact absurd h.2 (by decide)

/-- C6 counterexample: the catalog holds one question with stored topic
`Linux`; `get_topic_count` with the case-insensitively matching argument
`linux` returns 0, not the case-insensitive count 1. -/
theorem get_topic_count_case_sensitive_cex :
    get_topic_count [qLinux1] "linux" = 0 ∧ getTopicCountSpec [qLinux1] "linux" = 1 ∧
    get_topic_count [qLinux1] "linux" ≠ getTopicCountSpec [qLinux1] "linux" := by
  refine ⟨?_, ?_, ?_⟩ <;> decide

/-- C6 amended: `get_topic_count` counts the questions whose stored topic
equals the argument exactly (case-sensitive string equality), i.e. the number
of occurrences of the argument among the stored topics. -/
theorem get_topic_count_exact_match (qs : List Question) (t : String) :
    get_topic_count qs t = (qs.map Question.topic).count t := by
  rw [get_topic_count, ← List.countP_eq_length_filter, List.count, List.countP_map]
  rfl

/-- C4: `save_result` with a successful write followed by a fresh
`_load_results` of the same backing location reproduces the in-memory history
record for record — same ids, topics, difficulties, flags, ISO-resolution
timestamps and optional `time_taken` values, in the same order, with the new
record last. -/
theorem save_then_load_roundtrip (st : TrackerState) (r : QuestionResult) :
    (save_result st r true).1.results = st.results ++ [r] ∧
    load_results (save_result st r true).1.file = st.results ++ [r] := by
  refine ⟨rfl, ?_⟩
  show ((st.results ++ [r]).map serializeResult).map parseRecord = st.results ++ [r]
  rw [List.map_map]
  have hcomp : parseRecord ∘ serializeResult = id := by
    funext x
    rfl
  rw [hcomp, List.map_id]

/-- C7: whatever the outcome of the persistence write, `save_result` leaves the
in-memory history equal to the prior history plus exactly the new record (the
append is never rolled back), it is a total function (the write failure is
caught, no exception propagates), the failure warning is printed exactly when
the write fails, and a failed write leaves the backing file untouched. -/
theorem save_result_append_not_rolled_back (st : TrackerState) (r : QuestionResult)
    (writeOk : Bool) :
    (save_result st r writeOk).1.results = st.results ++ [r] ∧
    ((save_result st r writeOk).2 = true ↔ writeOk = false) ∧
    (writeOk = false → (save_result st r writeOk).1.file = st.file) := by
  refine ⟨rfl, ?_, ?_⟩
  · cases writeOk <;> simp [save_result]
  · intro h
    subst h
    rfl

/-- C8: if the input channel raises the abort signal while `ask_question` is
collecting the answer, the method returns `false` and the session state —
score, total, topic_performance and results — is returned unchanged; the
aborted question does not count toward `total`. -/
theorem ask_question_abort_leaves_session_unchanged (st : SessionState) (q : Question)
    (shuffled : List (String × Bool)) (inputs : List InputEvent) (ts : String) (tt : Rat)
    (habort : collectAnswer (shuffledOptions shuffled).length inputs = some none) :
    ask_question st q shuffled inputs ts tt = some (st, false) := by
  unfold ask_question
  rw [habort]

/-- C8 witness: an invalid line followed by the abort signal on a concrete
session and question. -/
theorem ask_question_abort_leaves_session_unchanged_witness :
    ask_question (initSession true) qGit [("x", false), ("y", true)]
      [InputEvent.invalid, InputEvent.abort] "2026-01-01T00:00:00" 1 =
      some (initSession true, false) :=
  ask_question_abort_leaves_session_unchanged (initSession true) qGit
    [("x", false), ("y", true)] [InputEvent.invalid, InputEvent.abort]
    "2026-01-01T00:00:00" 1 (by decide)

/-- C9: `get_overall_stats` reports the attempted and correct totals, the
overall rate, and a recent rate computed over exactly the last
`min 10 (length of history)` results in storage order; every rate is 0 when
its denominator is 0 (empty history), and with exactly 3 results the recent
rate equals the overall rate. -/
theorem get_overall_stats_spec (results : List QuestionResult) :
    (get_overall_stats results).total_attempted = results.length ∧
    (get_overall_stats results).total_correct = results.countP (fun r => r.correct) ∧
    (results = [] → get_overall_stats results = ⟨0, 0, 0, 0⟩) ∧
    (results ≠ [] →
      (get_overall_stats results).success_rate =
        (results.countP (fun r => r.correct) : Rat) / (results.length : Rat) ∧
      (get_overall_stats results).recent_success_rate =
        ((results.drop (results.length - 10)).countP (fun r => r.correct) : Rat) /
          ((results.drop (results.length - 10)).length : Rat)) ∧
    (results.drop (results.length - 10)).length = min 10 results.length ∧
    (results.length = 3 →
      (get_overall_stats results).recent_success_rate =
        (get_overall_stats results).success_rate) := by
  have hdroplen : (results.drop (results.length - 10)).length = min 10 results.length := by
    rw [List.length_drop]
    omega
  by_cases hemp : results = []
  · subst hemp
    refine ⟨rfl, rfl, fun _ => rfl, fun h => absurd rfl h, by simp, fun h3 => ?_⟩
    simp at h3
  · have hne : results.isEmpty = false := by
      simpa [List.isEmpty_iff] using hemp
    have hrecne : (results.drop (results.length - 10)).isEmpty = false := by
      rw [Bool.eq_false_iff]
      intro hcon
      have hnil := List.isEmpty_iff.mp hcon
      have hlen0 : (results.drop (results.length - 10)).length = 0 := by
        rw [hnil]
        rfl
      rw [List.length_drop] at hlen0
      exact hemp (List.eq_nil_of_length_eq_zero (by omega))
    refine ⟨?_, ?_, fun h => absurd h hemp, fun _ => ⟨?_, ?_⟩, hdroplen, fun h3 => ?_⟩
    · simp [get_overall_stats, hne]
    · simp [get_overall_stats, hne, List.countP_eq_length_filter]
    · rw [List.countP_eq_length_filter]
      simp [get_overall_stats, hne]
    · rw [List.countP_eq_length_filter]
      simp [get_overall_stats, hne, hrecne]
    · have hz : results.length - 10 = 0 := by omega
      simp [get_overall_stats, hne, hrecne, hz, List.drop_zero, h3]

theorem bumpStat_sum_total (m : List (String × Stat)) (key : String) (c : Bool) :
    ((bumpStat m key c).map (fun p => p.2.total)).sum =
      (m.map (fun p => p.2.total)).sum + 1 := by
  induction m with
  | nil => simp [bumpStat]
  | cons p rest ih =>
      obtain ⟨k, s⟩ := p
      by_cases hk : k = key
      · simp [bumpStat, hk]
        omega
      · simp [bumpStat, hk]
        omega

theorem bumpStat_sum_correct (m : List (String × Stat)) (key : String) (c : Bool) :
    ((bumpStat m key c).map (fun p => p.2.correct)).sum =
      (m.map (fun p => p.2.correct)).sum + (if c then 1 else 0) := by
  induction m with
  | nil => simp [bumpStat]
  | cons p rest ih =>
      obtain ⟨k, s⟩ := p
      by_cases hk : k = key
      · simp [bumpStat, hk]
        omega
      · simp [bumpStat, hk]
        omega

theorem bumpStat_entries_le (m : List (String × Stat)) (key : String) (c : Bool)
    (h : ∀ p ∈ m, p.2.correct ≤ p.2.total) :
    ∀ p ∈ bumpStat m key c, p.2.correct ≤ p.2.total := by
  induction m with
  | nil =>
      intro p hp
      simp [bumpStat] at hp
      subst hp
      dsimp
      split <;> omega
  | cons q rest ih =>
      obtain ⟨k, s⟩ := q
      by_cases hk : k = key
      · intro p hp
        simp only [bumpStat, hk, if_pos] at hp
        rcases List.mem_cons.mp hp with hp | hp
        · subst hp
          have hks := h (k, s) (List.mem_cons_self _ _)
          dsimp at hks ⊢
          split <;> omega
        · exact h p (List.mem_cons_of_mem _ hp)
      · intro p hp
        simp only [bumpStat, hk, if_false, if_neg hk] at hp
        rcases List.mem_cons.mp hp with hp | hp
        · subst hp
          exact h (k, s) (List.mem_cons_self _ _)
        · exact ih (fun p hp => h p (List.mem_cons_of_mem _ hp)) p hp

theorem ask_question_step (st : SessionState) (q : Question)
    (shuffled : List (String × Bool)) (inputs : List InputEvent) (ts : String) (tt : Rat)
    (st2 : SessionState) (b : Bool)
    (hinv : sessionInv st)
    (hask : ask_question st q shuffled inputs ts tt = some (st2, b)) :
    sessionInv st2 ∧
    (∀ a : Int, collectAnswer (shuffledOptions shuffled).length inputs = some (some a) →
      st2.total = st.total + 1 ∧
      st2.score = (if b then st.score + 1 else st.score) ∧
      (b = true ↔ some a = (newCorrectPosition shuffled).map (fun p => (p : Int)))) := by
  obtain ⟨h1, h2, h3, h4⟩ := hinv
  unfold ask_question at hask
  cases hcol : collectAnswer (shuffledOptions shuffled).length inputs with
  | none => rw [hcol] at hask; exact Option.noConfusion hask
  | some o =>
      rw [hcol] at hask
      cases o with
      | none =>
          simp only [Option.some.injEq, Prod.mk.injEq] at hask
          obtain ⟨hst, hb⟩ := hask
          subst hst
          subst hb
          exact ⟨⟨h1, h2, h3, h4⟩, fun a ha =>
            Option.noConfusion (Option.some.inj ha)⟩
      | some answer =>
          simp only [Option.some.injEq, Prod.mk.injEq] at hask
          obtain ⟨hst, hb⟩ := hask
          subst hst
          subst hb
          set c : Bool :=
            decide (some answer = (newCorrectPosition shuffled).map (fun p => (p : Int)))
            with hc
          refine ⟨⟨?_, ?_, ?_, ?_⟩, ?_⟩
          · dsimp
            cases c <;> simp <;> omega
          · dsimp
            rw [bumpStat_sum_total]
            omega
          · dsimp
            rw [bumpStat_sum_correct]
            cases c <;> simp <;> omega
          · exact bumpStat_entries_le st.topic_performance q.topic c h4
          · intro a ha
            have haeq : answer = a := Option.some.inj (Option.some.inj ha)
            subst haeq
            refine ⟨rfl, rfl, ?_⟩
            rw [hc]
            simp

theorem runSession_inv (steps : List AskInput) :
    ∀ st : SessionState, sessionInv st → sessionInv (runSession st steps) := by
  induction steps with
  | nil => intro st h; exact h
  | cons a rest ih =>
      intro st h
      cases hask : ask_question st a.q a.shuffled a.inputs a.ts a.tt with
      | none => simpa [runSession, hask] using h
      | some p =>
          obtain ⟨st2, b⟩ := p
          have h2 := (ask_question_step st a.q a.shuffled a.inputs a.ts a.tt st2 b h hask).1
          simpa [runSession, hask] using ih st2 h2

/-- C10: after any sequence of completed `ask_question` calls the session
counters satisfy `score ≤ total`, `total` is the sum of the per-topic totals,
`score` the sum of the per-topic corrects, and every per-topic `correct` is at
most its `total`; moreover each completed (non-aborted) call increments
`total` by exactly 1 and increments `score` by exactly 1 iff the collected
answer equals the shuffled correct position. -/
theorem session_counters_invariant :
    (∀ (track : Bool) (steps : List AskInput),
      sessionInv (runSession (initSession track) steps)) ∧
    (∀ (st : SessionState) (q : Question) (shuffled : List (String × Bool))
        (inputs : List InputEvent) (ts : String) (tt : Rat)
        (st2 : SessionState) (b : Bool),
      sessionInv st → ask_question st q shuffled inputs ts tt = some (st2, b) →
      sessionInv st2 ∧
      (∀ a : Int, collectAnswer (shuffledOptions shuffled).length inputs = some (some a) →
        st2.total = st.total + 1 ∧
        st2.score = (if b then st.score + 1 else st.score) ∧
        (b = true ↔ some a = (newCorrectPosition shuffled).map (fun p => (p : Int))))) := by
  constructor
  · intro track steps
    refine runSession_inv steps (initSession track) ?_
    refine ⟨Nat.le_refl 0, rfl, rfl, ?_⟩
    intro p hp
    exact absurd hp (List.not_mem_nil p)
  · intro st q shuffled inputs ts tt st2 b hinv hask
    exact ask_question_step st q shuffled inputs ts tt st2 b hinv hask

/-- C10 witness: one completed call on a fresh session (answer 2 on a
2-option question whose shuffled correct position is 2). -/
theorem session_counters_invariant_witness :
    sessionInv (⟨1, 1, [("git", ⟨1, 1⟩)], true,
      [⟨"q3", "git", "easy", true, "t0", some 1⟩]⟩ : SessionState) ∧
    (⟨1, 1, [("git", ⟨1, 1⟩)], true,
      [⟨"q3", "git", "easy", true, "t0", some 1⟩]⟩ : SessionState).total =
      (initSession true).total + 1 ∧
    (⟨1, 1, [("git", ⟨1, 1⟩)], true,
      [⟨"q3", "git", "easy", true, "t0", some 1⟩]⟩ : SessionState).score =
      (if true then (initSession true).score + 1 else (initSession true).score) ∧
    (true = true ↔ some (2 : Int) =
      (newCorrectPosition [("x", false), ("y", true)]).map (fun p => (p : Int))) := by
  have h := session_counters_invariant.2 (initSession true) qGit [("x", false), ("y", true)]
    [InputEvent.num 2] "t0" 1
    (⟨1, 1, [("git", ⟨1, 1⟩)], true,
      [⟨"q3", "git", "easy", true, "t0", some 1⟩]⟩ : SessionState) true
    (by
      refine ⟨Nat.le_refl 0, rfl, rfl, ?_⟩
      intro p hp
      exact absurd hp (List.not_mem_nil p))
    rfl
  obtain ⟨hi, hstep⟩ := h
  obtain ⟨ht, hs, hb⟩ := hstep 2 rfl
  exact ⟨hi, ht, hs, hb⟩

theorem statLookup_bumpStat (m : List (String × Stat)) (key : String) (c : Bool) (k : String) :
    statLookup (bumpStat m key c) k =
      if k = key then
        some (match statLookup m key with
              | none => ⟨if c then 1 else 0, 1⟩
              | some s => ⟨s.correct + (if c then 1 else 0), s.total + 1⟩)
      else statLookup m k := by
  induction m with
  | nil =>
      by_cases hk : k = key
      · subst hk
        simp [bumpStat, statLookup]
      · have hk' : ¬(key = k) := fun h => hk h.symm
        simp [bumpStat, statLookup, hk, hk']
  | cons p rest ih =>
      obtain ⟨k0, s0⟩ := p
      by_cases h0 : k0 = key
      · subst h0
        by_cases hk : k = k0
        · subst hk
          simp [bumpStat, statLookup]
        · have hk' : ¬(k0 = k) := fun h => hk h.symm
          simp [bumpStat, statLookup, hk, hk']
      · by_cases hk : k0 = k
        · subst hk
          have hne : ¬(k0 = key) := h0
          simp [bumpStat, statLookup, hne, fun h : k0 = key => h0 h]
        · simp [bumpStat, statLookup, h0, hk, ih]

theorem statLookup_foldl :
    ∀ (results : List QuestionResult) (m : List (String × Stat)) (k : String),
      statLookup (results.foldl (fun acc r => bumpStat acc r.topic r.correct) m) k =
        statCombine (statLookup m k)
          (results.countP (fun r => decide (r.topic = k) && r.correct))
          (results.countP (fun r => decide (r.topic = k))) := by
  intro results
  induction results with
  | nil =>
      intro m k
      simp only [List.foldl_nil, List.countP_nil]
      cases h : statLookup m k with
      | none => simp [statCombine]
      | some s => simp [statCombine]
  | cons r rest ih =>
      intro m k
      rw [List.foldl_cons, ih (bumpStat m r.topic r.correct) k, statLookup_bumpStat,
        List.countP_cons, List.countP_cons]
      by_cases hk : k = r.topic
      · subst hk
        simp only [decide_True, Bool.true_and, if_pos rfl]
        cases h : statLookup m r.topic with
        | none =>
            cases hc : r.correct <;>
              simp [statCombine, h, Stat.mk.injEq] <;> omega
        | some s =>
            cases hc : r.correct <;>
              simp [statCombine, h, Stat.mk.injEq] <;> omega
      · have hk' : ¬(r.topic = k) := fun h => hk h.symm
        simp [hk, hk']

theorem topicStats_lookup (results : List QuestionResult) (k : String) :
    statLookup (topicStats results) k =
      statCombine none (results.countP (fun r => decide (r.topic = k) && r.correct))
        (results.countP (fun r => decide (r.topic = k))) := by
  unfold topicStats
  exact statLookup_foldl results [] k

theorem bumpStat_keys (m : List (String × Stat)) (key : String) (c : Bool) :
    (bumpStat m key c).map Prod.fst =
      if key ∈ m.map Prod.fst then m.map Prod.fst else m.map Prod.fst ++ [key] := by
  induction m with
  | nil => simp [bumpStat]
  | cons p rest ih =>
      obtain ⟨k0, s0⟩ := p
      by_cases h0 : k0 = key
      · subst h0
        simp [bumpStat]
      · have h0' : ¬(key = k0) := fun h => h0 h.symm
        by_cases hmem : key ∈ rest.map Prod.fst
        · simp [bumpStat, h0, h0', hmem, ih]
        · simp [bumpStat, h0, h0', hmem, ih]

theorem foldl_bumpStat_keys_nodup (results : List QuestionResult) :
    ∀ m : List (String × Stat), (m.map Prod.fst).Nodup →
      ((results.foldl (fun acc r => bumpStat acc r.topic r.correct) m).map Prod.fst).Nodup := by
  induction results with
  | nil => intro m hm; simpa using hm
  | cons r rest ih =>
      intro m hm
      rw [List.foldl_cons]
      refine ih (bumpStat m r.topic r.correct) ?_
      rw [bumpStat_keys]
      by_cases hmem : r.topic ∈ m.map Prod.fst
      · simpa [hmem] using hm
      · simp only [hmem, if_false]
        rw [List.nodup_append]
        exact ⟨hm, List.nodup_singleton _, by simp [List.disjoint_singleton, hmem]⟩

theorem topicStats_keys_nodup (results : List QuestionResult) :
    ((topicStats results).map Prod.fst).Nodup := by
  unfold topicStats
  exact foldl_bumpStat_keys_nodup results [] (by simp)

theorem statLookup_of_mem :
    ∀ (m : List (String × Stat)), (m.map Prod.fst).Nodup →
      ∀ p ∈ m, statLookup m p.1 = some p.2 := by
  intro m
  induction m with
  | nil => intro _ p hp; exact absurd hp (List.not_mem_nil p)
  | cons q rest ih =>
      obtain ⟨k0, s0⟩ := q
      intro hnd p hp
      rw [List.map_cons] at hnd
      have hnd' := List.nodup_cons.mp hnd
      rcases List.mem_cons.mp hp with h | h
      · subst h
        simp [statLookup]
      · have hk : ¬(k0 = p.1) := by
          intro he
          have hmem := List.mem_map_of_mem Prod.fst h
          rw [← he] at hmem
          exact hnd'.1 hmem
        simp only [statLookup, hk, if_false, if_neg hk]
        exact ih hnd'.2 p h

theorem weakAreasList_keys_sublist (l : List (String × Stat)) :
    List.Sublist
      ((l.filterMap (fun p => if MIN_ATTEMPTS_FOR_WEAK_AREAS ≤ p.2.total then
        some (p.1, (p.2.correct : Rat) / (p.2.total : Rat)) else none)).map Prod.fst)
      (l.map Prod.fst) := by
  induction l with
  | nil => simp
  | cons p rest ih =>
      by_cases hc : MIN_ATTEMPTS_FOR_WEAK_AREAS ≤ p.2.total
      · simp only [List.filterMap_cons, hc, if_true, if_pos hc, List.map_cons]
        exact List.Sublist.cons₂ _ ih
      · simp only [List.filterMap_cons, hc, if_false, if_neg hc, List.map_cons]
        exact List.Sublist.cons _ ih

theorem weakAreasList_nodup (results : List QuestionResult) :
    (weakAreasList results).Nodup := by
  have h1 : ((weakAreasList results).map Prod.fst).Nodup :=
    (weakAreasList_keys_sublist (topicStats results)).nodup (topicStats_keys_nodup results)
  exact h1.of_map

theorem rateLe_trans : ∀ a b c : String × Rat, rateLe a b → rateLe b c → rateLe a c := by
  intro a b c hab hbc
  simp only [rateLe, decide_eq_true_eq] at hab hbc ⊢
  exact le_trans hab hbc

theorem rateLe_total : ∀ a b : String × Rat, rateLe a b || rateLe b a := by
  intro a b
  simpa [rateLe] using le_total a.2 b.2

theorem pair_sublist_take (a b : α) :
    ∀ (l : List α) (k : Nat), List.Sublist [a, b] l → l.Nodup → b ∈ l.take k →
      List.Sublist [a, b] (l.take k) := by
  intro l
  induction l with
  | nil =>
      intro k hsub _ hb
      rw [List.take_nil] at hb
      exact absurd hb (List.not_mem_nil b)
  | cons x rest ih =>
      intro k hsub hnd hb
      cases k with
      | zero => simp at hb
      | succ kk =>
          rw [List.take_succ_cons] at hb ⊢
          have hxnot : x ∉ rest := (List.nodup_cons.mp hnd).1
          cases hsub with
          | cons₂ y htail =>
              have hbrest : b ∈ rest := List.singleton_sublist.mp htail
              have hbne : b ≠ a := fun he => hxnot (he ▸ hbrest)
              have hb' : b ∈ rest.take kk := by
                rcases List.mem_cons.mp hb with h | h
                · exact absurd h hbne
                · exact h
              exact List.Sublist.cons₂ _ (List.singleton_sublist.mpr hb')
          | cons y htail =>
              have hbrest : b ∈ rest := htail.subset (by simp)
              have hbne : b ≠ x := fun he => hxnot (he ▸ hbrest)
              have hb' : b ∈ rest.take kk := by
                rcases List.mem_cons.mp hb with h | h
                · exact absurd h hbne
                · exact h
              exact List.Sublist.cons _ (ih kk htail (List.nodup_cons.mp hnd).2 hb')

/-- C3: `get_weak_areas` returns only topics with at least
`MIN_ATTEMPTS_FOR_WEAK_AREAS` (3) recorded attempts — each returned pair is
`(topic, correct/total)` over the full history — returns at most the bottom
`MAX_WEAK_AREAS_SHOWN` (5) such topics ordered ascending by success rate, with
ties broken by the first-seen order of the topic (the order of the grouping
dict, hence of the history), and everything it leaves out has a rate at least
as high as everything it returns. -/
theorem get_weak_areas_spec (results : List QuestionResult) :
    (get_weak_areas results).length ≤ MAX_WEAK_AREAS_SHOWN ∧
    (∀ p ∈ get_weak_areas results,
      MIN_ATTEMPTS_FOR_WEAK_AREAS ≤ results.countP (fun r => decide (r.topic = p.1)) ∧
      p.2 = (results.countP (fun r => decide (r.topic = p.1) && r.correct) : Rat) /
            (results.countP (fun r => decide (r.topic = p.1)) : Rat)) ∧
    (get_weak_areas results).Pairwise (fun a b => a.2 ≤ b.2) ∧
    (∀ a b : String × Rat, List.Sublist [a, b] (weakAreasList results) → a.2 = b.2 →
      b ∈ get_weak_areas results → List.Sublist [a, b] (get_weak_areas results)) ∧
    (∀ p ∈ weakAreasList results, p ∉ get_weak_areas results →
      ∀ q ∈ get_weak_areas results, q.2 ≤ p.2) := by
  have hsorted : (List.mergeSort (weakAreasList results) rateLe).Pairwise
      (fun a b => rateLe a b = true) :=
    List.sorted_mergeSort rateLe_trans rateLe_total (weakAreasList results)
  have hnodupS : (List.mergeSort (weakAreasList results) rateLe).Nodup :=
    ((List.mergeSort_perm (weakAreasList results) rateLe).nodup_iff).mpr
      (weakAreasList_nodup results)
  refine ⟨?_, ?_, ?_, ?_, ?_⟩
  · exact List.length_take_le _ _
  · intro p hp
    have hpW : p ∈ weakAreasList results :=
      List.mem_mergeSort.mp (List.take_subset _ _ hp)
    obtain ⟨e, he, hfe⟩ := List.mem_filterMap.mp hpW
    by_cases hc : MIN_ATTEMPTS_FOR_WEAK_AREAS ≤ e.2.total
    · rw [if_pos hc] at hfe
      have hfe' := Option.some.inj hfe
      subst hfe'
      have hlook : statLookup (topicStats results) e.1 = some e.2 :=
        statLookup_of_mem (topicStats results) (topicStats_keys_nodup results) e he
      rw [topicStats_lookup] at hlook
      simp only [statCombine] at hlook
      by_cases hcn0 : results.countP (fun r => decide (r.topic = e.1)) = 0
      · rw [if_pos hcn0] at hlook
        exact absurd hlook (by simp)
      · rw [if_neg hcn0] at hlook
        have he2 := Option.some.inj hlook
        have hcorr : e.2.correct =
            results.countP (fun r => decide (r.topic = e.1) && r.correct) := by
          rw [← he2]
        have htot : e.2.total = results.countP (fun r => decide (r.topic = e.1)) := by
          rw [← he2]
        constructor
        · rw [← htot]
          exact hc
        · dsimp only
          rw [← hcorr, ← htot]
    · rw [if_neg hc] at hfe
      exact Option.noConfusion hfe
  · have hPW := List.Pairwise.sublist
      (List.take_sublist MAX_WEAK_AREAS_SHOWN (List.mergeSort (weakAreasList results) rateLe))
      hsorted
    exact hPW.imp (fun h => of_decide_eq_true h)
  · intro a b hab heq hbmem
    have hle : rateLe a b = true := by
      unfold rateLe
      rw [heq]
      simp
    have hpair := List.pair_sublist_mergeSort rateLe_trans rateLe_total hle hab
    exact pair_sublist_take a b _ MAX_WEAK_AREAS_SHOWN hpair hnodupS hbmem
  · intro p hp hnot q hq
    have hsplit := List.take_append_drop MAX_WEAK_AREAS_SHOWN
      (List.mergeSort (weakAreasList results) rateLe)
    have hpS : p ∈ List.mergeSort (weakAreasList results) rateLe :=
      List.mem_mergeSort.mpr hp
    rw [← hsplit] at hpS
    have hpd : p ∈ (List.mergeSort (weakAreasList results) rateLe).drop
        MAX_WEAK_AREAS_SHOWN := by
      rcases List.mem_append.mp hpS with h | h
      · exact absurd h hnot
      · exact h
    have hPW := hsorted
    rw [← hsplit] at hPW
    have hrel := (List.pairwise_append.mp hPW).2.2
    exact of_decide_eq_true (hrel q hq p hpd)

/-- C3 witness: on the concrete history, `k8s` (4 attempts, rate 1/4) is
returned while `aws` (2 attempts) is excluded; the returned pair carries the
threshold and the exact historical rate. -/
theorem get_weak_areas_spec_witness :
    MIN_ATTEMPTS_FOR_WEAK_AREAS ≤ histC3.countP (fun r => decide (r.topic = "k8s")) ∧
    ((1 : Nat) : Rat) / ((4 : Nat) : Rat) =
      (histC3.countP (fun r => decide (r.topic = "k8s") && r.correct) : Rat) /
      (histC3.countP (fun r => decide (r.topic = "k8s")) : Rat) := by
  have h1 : topicStats histC3 = [("aws", ⟨1, 2⟩), ("k8s", ⟨1, 4⟩)] := rfl
  have h2 : weakAreasList histC3 = [("k8s", ((1 : Nat) : Rat) / ((4 : Nat) : Rat))] := by
    unfold weakAreasList
    rw [h1]
    rfl
  have h3 : get_weak_areas histC3 = [("k8s", ((1 : Nat) : Rat) / ((4 : Nat) : Rat))] := by
    unfold get_weak_areas
    rw [h2, List.mergeSort_singleton]
    rfl
  have hmem : ("k8s", ((1 : Nat) : Rat) / ((4 : Nat) : Rat)) ∈ get_weak_areas histC3 := by
    rw [h3]
    exact List.mem_singleton_self _
  exact (get_weak_areas_spec histC3).2.1 ("k8s", ((1 : Nat) : Rat) / ((4 : Nat) : Rat)) hmem
